import Mathlib

/-!
Verification of the cube-quadruplet search (a³ + b³ + c³ = d³ with
d > a > b > c > 0) against its three Python sources:

* `quadrapulets.py` — `find_cube_quadruplets`, an exact brute-force double loop;
* `app.py` — `find_cube_quadruplets_improved`, a single loop over `b` with a
  floating-point cube-root candidate generator, tolerance acceptance tests,
  an iteration cap, and parameter validation;
* `app-p.py` — `find_cube_quadruplets_with_factors`, the same loop extended
  with gcd/primitive analysis and post-loop generation of scaled families,
  plus `find_gcd_multiple`, `get_primitive_form` and the step-by-step
  verifier `verify_equation_step_by_step` (shared with `app.py`).

Python integers are unbounded, so they are embedded as `ℤ`.  The
floating-point cube-root expression `needed ** (1/3)` followed by `round`
is the single non-integer step; the searches are therefore parameterised by
an arbitrary candidate generator `cbrt : ℤ → ℤ`, and `cbrtRound` below is
the exact nearest-integer cube root used to instantiate it on concrete
runs.  Python's tolerance comparison `abs(i) < 1e-10` on an integer `i`
compares the exact integer with the exact rational value of the binary64
literal `1e-10`; it is embedded exactly as such over `ℚ`.
-/

/-- A quadruplet `(a, b, c, d)` as produced by the searches. -/
abbrev Quad : Type := ℤ × ℤ × ℤ × ℤ

/-- Python `range(hi, lo - 1, -1)`: the descending list `[hi, hi - 1, ..., lo]`
(empty when `hi < lo`). -/
def rangeDown (hi lo : ℤ) : List ℤ :=
  (List.range (hi + 1 - lo).toNat).map (fun i : ℕ => hi - (i : ℤ))

/-- Python `range(lo, hi + 1)`: the ascending list `[lo, lo + 1, ..., hi]`
(empty when `hi < lo`). -/
def rangeAsc (lo hi : ℤ) : List ℤ :=
  (List.range (hi + 1 - lo).toNat).map (fun i : ℕ => lo + (i : ℤ))

/-- The exact rational value of the IEEE-754 binary64 literal `1e-10`
(the double nearest to 10⁻¹⁰, namely 7737125245533627 · 2⁻⁸⁶).  Only the
facts `0 < eps1em10` and `eps1em10 ≤ 1` are ever used, so the comparison
below is insensitive to the final mantissa digit. -/
def eps1em10 : ℚ := 7737125245533627 / 2 ^ 86

/-- Python `abs(x - y) < 1e-10` evaluated on integers `x`, `y`: the exact
integer difference compared with the exact rational value of the float
literal.  `|x - y| < 7737125245533627 / 2⁸⁶` is written with the
denominator cleared so that the definition computes over `ℤ`;
`tol_lt_eq_float_compare` below proves it equal to the comparison
against `eps1em10` over `ℚ`.  Used by both tolerance checks of the
searches (`app.py` lines 72 and 78, `app-p.py` lines 162 and 166). -/
def tol_lt (x y : ℤ) : Bool :=
  decide (|x - y| * 2 ^ 86 < 7737125245533627)

/-- Largest `r` with `r ^ 3 ≤ n` (integer cube root). -/
def natCbrt (n : ℕ) : ℕ :=
  (List.range (n + 1)).foldl (fun acc r => if r ^ 3 ≤ n then r else acc) 0

/-- Nearest integer to the real cube root of `x` (for `x > 0`): the exact
value of Python's `round(x ** (1/3))` whenever the float computation is
exact enough to round correctly, and in particular on every perfect cube.
Concrete runs of the searches are instantiated with this generator. -/
def cbrtRound (x : ℤ) : ℤ :=
  let r := natCbrt x.toNat
  if 8 * x.toNat < (2 * r + 1) ^ 3 then (r : ℤ) else (r : ℤ) + 1

/-- `find_cube_quadruplets` from `quadrapulets.py`: exhaustive double loop,
`b` in `range(a - 1, 1, -1)`, `c` in `range(b - 1, 0, -1)`, collecting
`(a, b, c, d)` whenever `b³ + c³ = d³ - a³` with `d = a + n`. -/
def find_cube_quadruplets (a n : ℤ) : List Quad :=
  let d := a + n
  let target := d ^ 3 - a ^ 3
  (rangeDown (a - 1) 2).flatMap (fun b =>
    (rangeDown (b - 1) 1).filterMap (fun c =>
      if b ^ 3 + c ^ 3 = target then some (a, b, c, d) else none))

/-- One iteration of the `b`-loop shared by `app.py` (lines 55-80) and
`app-p.py` (lines 150-168): the `b ≥ a or b ≥ d` guard, the
`needed ≤ 0` skip, the rounded cube-root candidate, the tolerance
acceptance test, the ordering/distinctness constraints, and the final
tolerance check of the full equation. -/
def tryCandidate (cbrt : ℤ → ℤ) (a d target b : ℤ) : Option Quad :=
  if b ≥ a ∨ b ≥ d then none
  else
    let needed := target - b ^ 3
    if needed ≤ 0 then none
    else
      let c := cbrt needed
      if tol_lt (c ^ 3) needed then
        if 0 < c ∧ c < b ∧ c < a ∧ c < d ∧ c ≠ a ∧ c ≠ b ∧ c ≠ d then
          if tol_lt (a ^ 3 + b ^ 3 + c ^ 3) (d ^ 3) then some (a, b, c, d)
          else none
        else none
      else none

/-- Structured result of `find_cube_quadruplets_improved`: the quadruplet
list together with the iteration counter and whether the
`iterations > max_iterations` break was taken (both reported in the
source's result text). -/
structure SearchResult where
  quadruplets : List Quad
  iterations : ℕ
  capHit : Bool
deriving DecidableEq, Repr

/-- The `for b in range(max_b, 0, -1)` loop of `app.py` lines 42-99:
`b` counts down (the fuel), `iterations` is incremented at the top of each
pass, and the loop breaks once `iterations > max_iterations`. -/
def searchLoop (cbrt : ℤ → ℤ) (a d target max_iterations : ℤ) :
    ℕ → ℕ → List Quad → SearchResult
  | 0, iters, acc => ⟨acc, iters, false⟩
  | b + 1, iters, acc =>
    let iters' := iters + 1
    if (iters' : ℤ) > max_iterations then ⟨acc, iters', true⟩
    else
      match tryCandidate cbrt a d target ((b : ℤ) + 1) with
      | some q => searchLoop cbrt a d target max_iterations b iters' (acc ++ [q])
      | none => searchLoop cbrt a d target max_iterations b iters' acc

/-- `find_cube_quadruplets_improved` from `app.py`: a non-positive
`max_iterations` is silently replaced by the default 10000 (line 13);
non-positive `a` or `n` returns the error text together with an empty
quadruplet list (line 17-18); otherwise the `b`-loop runs from `a - 1`
down to 1 under the iteration cap. -/
def find_cube_quadruplets_improved (cbrt : ℤ → ℤ) (a n max_iterations : ℤ) :
    Except String SearchResult :=
  let max_iterations := if max_iterations > 0 then max_iterations else 10000
  if a ≤ 0 ∨ n ≤ 0 then
    Except.error "Error: Both a and n must be positive integers"
  else
    let d := a + n
    let target := d ^ 3 - a ^ 3
    Except.ok (searchLoop cbrt a d target max_iterations (a - 1).toNat 0 [])

/-- `find_gcd_multiple` from `app-p.py`: `reduce(gcd, (a, b, c, d))`.
Python's `math.gcd` on ints is the non-negative gcd, i.e. `Int.gcd`. -/
def find_gcd_multiple (a b c d : ℤ) : ℤ :=
  (Int.gcd ((Int.gcd ((Int.gcd a b : ℕ) : ℤ) c : ℕ) : ℤ) d : ℕ)

/-- `is_primitive_solution` from `app-p.py`. -/
def is_primitive_solution (a b c d : ℤ) : Bool :=
  decide (find_gcd_multiple a b c d = 1)

/-- `get_primitive_form` from `app-p.py`: divide each component by the
common factor (Python `//` is floor division, `Int.fdiv`). -/
def get_primitive_form (a b c d : ℤ) : ℤ × ℤ × ℤ × ℤ × ℤ :=
  let common_factor := find_gcd_multiple a b c d
  (a.fdiv common_factor, b.fdiv common_factor, c.fdiv common_factor,
    d.fdiv common_factor, common_factor)

/-- Componentwise scaling of a quadruplet: `tuple(factor * x for x in q)`
(`app-p.py` lines 214 and 314). -/
def scaleQuad (f : ℤ) (q : Quad) : Quad :=
  (f * q.1, f * q.2.1, f * q.2.2.1, f * q.2.2.2)

/-- Structured result of the `app-p.py` search loop: quadruplets, the
primitive solutions collected along the way, the iteration counter and the
cap flag. -/
structure FactorSearchResult where
  quadruplets : List Quad
  primitives : List Quad
  iterations : ℕ
  capHit : Bool
deriving DecidableEq, Repr

/-- The `for b in range(max_b, 0, -1)` loop of `app-p.py` lines 140-202:
identical to the `app.py` loop except that, when `include_factors` is set,
each accepted quadruplet with gcd 1 is also appended to
`primitive_solutions`. -/
def searchLoopF (cbrt : ℤ → ℤ) (a d target max_iterations : ℤ)
    (include_factors : Bool) :
    ℕ → ℕ → List Quad → List Quad → FactorSearchResult
  | 0, iters, acc, prims => ⟨acc, prims, iters, false⟩
  | b + 1, iters, acc, prims =>
    let iters' := iters + 1
    if (iters' : ℤ) > max_iterations then ⟨acc, prims, iters', true⟩
    else
      match tryCandidate cbrt a d target ((b : ℤ) + 1) with
      | some q =>
        let prims' :=
          if include_factors then
            if find_gcd_multiple q.1 q.2.1 q.2.2.1 q.2.2.2 = 1 then prims ++ [q]
            else prims
          else prims
        searchLoopF cbrt a d target max_iterations include_factors b iters'
          (acc ++ [q]) prims'
      | none =>
        searchLoopF cbrt a d target max_iterations include_factors b iters'
          acc prims

/-- The family-generation pass of `app-p.py` lines 209-225: for each found
primitive and each `factor` in `range(2, max_factor + 1)`, the scaled
quadruplet is appended provided the (tautological) bounds check
`new_d == new_a + factor * (prim_d - prim_a)` holds and it is not already
present in the accumulated list. -/
def familyStep (p : Quad) (acc2 : List Quad) (f : ℤ) : List Quad :=
  let s := scaleQuad f p
  if s.2.2.2 = s.1 + f * (p.2.2.2 - p.1) then
    if s ∈ acc2 then acc2 else acc2 ++ [s]
  else acc2

/-- The two nested `for` loops of the family-generation pass. -/
def addFamilies (max_factor : ℤ) (prims quads : List Quad) : List Quad :=
  prims.foldl (fun acc p => (rangeAsc 2 max_factor).foldl (familyStep p) acc) quads

/-- `find_cube_quadruplets_with_factors` from `app-p.py`: parameter
handling as in `app.py` (non-positive `max_iterations` and `max_factor`
are replaced by their defaults 10000 and 5, lines 111-112), then the
search loop, then — when `include_factors` is set and some primitive was
found — the scaled-family generation pass. -/
def find_cube_quadruplets_with_factors (cbrt : ℤ → ℤ) (a n max_iterations : ℤ)
    (include_factors : Bool) (max_factor : ℤ) :
    Except String FactorSearchResult :=
  let max_iterations := if max_iterations > 0 then max_iterations else 10000
  let max_factor := if max_factor > 0 then max_factor else 5
  if a ≤ 0 ∨ n ≤ 0 then
    Except.error "Error: Both a and n must be positive integers"
  else
    let d := a + n
    let target := d ^ 3 - a ^ 3
    let s := searchLoopF cbrt a d target max_iterations include_factors
      (a - 1).toNat 0 [] []
    if include_factors ∧ s.primitives ≠ [] then
      Except.ok { s with
        quadruplets := addFamilies max_factor s.primitives s.quadruplets }
    else Except.ok s

/-- Structured outcome of `verify_equation_step_by_step` (`app.py`
lines 225-292): rejection of non-positive inputs, the equation check
`d³ - a³ = b³ + c³`, and — only when the equation holds — the alternative
form check and the four ordering checks in source order
(`d > a`, `a > b`, `b > c`, `c > 0`) with their conjunction. -/
inductive VerifyOutcome where
  | invalidInput : VerifyOutcome
  | notSatisfied (difference : ℤ) : VerifyOutcome
  | satisfied (altFormMatch dGtA aGtB bGtC cPos allSatisfied : Bool) :
      VerifyOutcome
deriving DecidableEq, Repr

/-- `verify_equation_step_by_step` from `app.py`. -/
def verify_equation_step_by_step (a b c d : ℤ) : VerifyOutcome :=
  if a ≤ 0 ∨ b ≤ 0 ∨ c ≤ 0 ∨ d ≤ 0 then .invalidInput
  else
    let left := d ^ 3 - a ^ 3
    let right := b ^ 3 + c ^ 3
    if left = right then
      .satisfied (decide (a ^ 3 + b ^ 3 + c ^ 3 = d ^ 3)) (decide (d > a))
        (decide (a > b)) (decide (b > c)) (decide (c > 0))
        (decide (d > a) && decide (a > b) && decide (b > c) && decide (c > 0))
    else .notSatisfied |left - right|

/-- The property claimed of every returned quadruplet: the cube equation
holds exactly, the ordering `d > a > b > c > 0` holds, and the four
components are pairwise distinct. -/
def GoodQuad (q : Quad) : Prop :=
  q.1 ^ 3 + q.2.1 ^ 3 + q.2.2.1 ^ 3 = q.2.2.2 ^ 3 ∧
  q.2.2.2 > q.1 ∧ q.1 > q.2.1 ∧ q.2.1 > q.2.2.1 ∧ q.2.2.1 > 0 ∧
  q.1 ≠ q.2.1 ∧ q.1 ≠ q.2.2.1 ∧ q.1 ≠ q.2.2.2 ∧
  q.2.1 ≠ q.2.2.1 ∧ q.2.1 ≠ q.2.2.2 ∧ q.2.2.1 ≠ q.2.2.2

instance (q : Quad) : Decidable (GoodQuad q) := by
  unfold GoodQuad; infer_instance

/-! ### Shared lemmas -/

theorem eps1em10_pos : 0 < eps1em10 := by unfold eps1em10; norm_num

theorem eps1em10_le_one : eps1em10 ≤ 1 := by unfold eps1em10; norm_num

/-- The integer comparison defining `tol_lt` is exactly the comparison
of the integer difference with the rational value of the binary64
literal `1e-10`. -/
theorem tol_lt_eq_float_compare (x y : ℤ) :
    tol_lt x y = true ↔ |(x : ℚ) - (y : ℚ)| < eps1em10 := by
  unfold tol_lt eps1em10
  rw [decide_eq_true_iff]
  have h86 : (0 : ℚ) < 2 ^ 86 := by positivity
  rw [lt_div_iff₀ h86,
    show |(x : ℚ) - (y : ℚ)| = ((|x - y| : ℤ) : ℚ) from by push_cast; ring]
  constructor <;> intro h <;> exact_mod_cast h

/-- On integer arguments, a tolerance of less than one accepts exactly
equality. -/
theorem tol_lt_iff (x y : ℤ) : tol_lt x y = true ↔ x = y := by
  unfold tol_lt
  rw [decide_eq_true_iff]
  constructor
  · intro h
    by_contra hne
    have h1 : (1 : ℤ) ≤ |x - y| := Int.one_le_abs (sub_ne_zero.mpr hne)
    have h2 : (2 : ℤ) ^ 86 ≤ |x - y| * 2 ^ 86 :=
      le_mul_of_one_le_left (by positivity) h1
    norm_num at h h2
    linarith
  · rintro rfl
    norm_num

theorem cube_le_cube {x y : ℤ} (h : x ≤ y) : x ^ 3 ≤ y ^ 3 := by
  nlinarith [sq_nonneg (x + y), sq_nonneg x, sq_nonneg y, sq_nonneg (x - y)]

theorem cube_lt_cube {x y : ℤ} (h : x < y) : x ^ 3 < y ^ 3 := by
  have h1 : x + 1 ≤ y := h
  nlinarith [sq_nonneg (x + y), sq_nonneg x, sq_nonneg y, sq_nonneg (x - y)]

theorem cube_inj {x y : ℤ} (h : x ^ 3 = y ^ 3) : x = y := by
  rcases lt_trichotomy x y with hlt | heq | hgt
  · exact absurd h (ne_of_lt (cube_lt_cube hlt))
  · exact heq
  · exact absurd h.symm (ne_of_lt (cube_lt_cube hgt))

/-- If `m` lies strictly between two consecutive cubes then `m` is not a
cube. -/
theorem no_cube_between {lo m : ℤ} (h1 : lo ^ 3 < m) (h2 : m < (lo + 1) ^ 3)
    (c : ℤ) : c ^ 3 ≠ m := by
  intro h
  rcases le_or_lt c lo with hc | hc
  · have := cube_le_cube hc; omega
  · have h3 : lo + 1 ≤ c := hc
    have := cube_le_cube h3; omega

theorem mem_rangeDown {hi lo x : ℤ} : x ∈ rangeDown hi lo ↔ lo ≤ x ∧ x ≤ hi := by
  unfold rangeDown
  simp only [List.mem_map, List.mem_range]
  constructor
  · rintro ⟨i, hmem, rfl⟩; omega
  · rintro ⟨h1, h2⟩; exact ⟨(hi - x).toNat, by omega, by omega⟩

theorem mem_rangeAsc {lo hi x : ℤ} : x ∈ rangeAsc lo hi ↔ lo ≤ x ∧ x ≤ hi := by
  unfold rangeAsc
  simp only [List.mem_map, List.mem_range]
  constructor
  · rintro ⟨i, hmem, rfl⟩; omega
  · rintro ⟨h1, h2⟩; exact ⟨(x - lo).toNat, by omega, by omega⟩

theorem rangeDown_eq_cons {hi lo : ℤ} (h : lo ≤ hi) :
    rangeDown hi lo = hi :: rangeDown (hi - 1) lo := by
  unfold rangeDown
  have h1 : (hi + 1 - lo).toNat = ((hi - 1) + 1 - lo).toNat + 1 := by omega
  rw [h1, List.range_succ_eq_map, List.map_cons, List.map_map]
  congr 1
  · simp
  · refine List.map_congr_left (fun i _ => ?_)
    show hi - ((i + 1 : ℕ) : ℤ) = hi - 1 - (i : ℤ)
    push_cast
    ring

theorem rangeDown_eq_nil {hi lo : ℤ} (h : hi < lo) : rangeDown hi lo = [] := by
  unfold rangeDown
  have h1 : (hi + 1 - lo).toNat = 0 := by omega
  rw [h1]
  rfl

/-- Full characterisation of one loop iteration: a candidate is returned
exactly when the guards pass, the rounded cube-root candidate reconstructs
`needed` exactly, and all constraints hold — the tolerance comparisons
contribute nothing beyond exact integer equality. -/
theorem tryCandidate_some_iff {cbrt : ℤ → ℤ} {a d target b : ℤ} {q : Quad} :
    tryCandidate cbrt a d target b = some q ↔
      (b < a ∧ b < d ∧ 0 < target - b ^ 3 ∧
       (cbrt (target - b ^ 3)) ^ 3 = target - b ^ 3 ∧
       0 < cbrt (target - b ^ 3) ∧ cbrt (target - b ^ 3) < b ∧
       cbrt (target - b ^ 3) < a ∧ cbrt (target - b ^ 3) < d ∧
       cbrt (target - b ^ 3) ≠ a ∧ cbrt (target - b ^ 3) ≠ b ∧
       cbrt (target - b ^ 3) ≠ d ∧
       a ^ 3 + b ^ 3 + (cbrt (target - b ^ 3)) ^ 3 = d ^ 3 ∧
       q = (a, b, cbrt (target - b ^ 3), d)) := by
  simp only [tryCandidate]
  split_ifs with h1 h2 h3 h4 h5
  · simp only [false_iff]; rintro ⟨ha, hd, -⟩; omega
  · simp only [false_iff]; rintro ⟨-, -, hpos, -⟩; omega
  · rw [tol_lt_iff] at h3 h5
    simp only [Option.some_inj]
    push_neg at h1
    constructor
    · rintro rfl
      exact ⟨h1.1, h1.2, by omega, h3, h4.1, h4.2.1, h4.2.2.1, h4.2.2.2.1,
        h4.2.2.2.2.1, h4.2.2.2.2.2.1, h4.2.2.2.2.2.2, h5, rfl⟩
    · rintro ⟨-, -, -, -, -, -, -, -, -, -, -, -, rfl⟩; rfl
  · rw [tol_lt_iff] at h3
    simp only [false_iff]
    rintro ⟨-, -, -, -, -, -, -, -, -, -, -, heq, -⟩
    exact h5 ((tol_lt_iff _ _).mpr (by omega))
  · simp only [false_iff]
    rintro ⟨-, -, -, -, hc1, hc2, hc3, hc4, hc5, hc6, hc7, -, -⟩
    exact h4 ⟨hc1, hc2, hc3, hc4, hc5, hc6, hc7⟩
  · rw [tol_lt_iff] at h3
    simp only [false_iff]
    rintro ⟨-, -, -, heq, -⟩
    exact h3 heq

/-- When `needed` is not a perfect cube the iteration rejects whatever the
candidate generator returns. -/
theorem tryCandidate_eq_none_of_no_cube {cbrt : ℤ → ℤ} {a d target b : ℤ}
    (h : ∀ c : ℤ, c ^ 3 ≠ target - b ^ 3) :
    tryCandidate cbrt a d target b = none := by
  cases htry : tryCandidate cbrt a d target b with
  | none => rfl
  | some q =>
    obtain ⟨-, -, -, hcube, -⟩ := tryCandidate_some_iff.mp htry
    exact absurd hcube (h _)

/-- Running the `app.py` loop with enough budget left processes every `b`
down to 1 and never trips the cap. -/
theorem searchLoop_no_cap (cbrt : ℤ → ℤ) (a d target mi : ℤ) :
    ∀ (b iters : ℕ) (acc : List Quad), (iters : ℤ) + (b : ℤ) ≤ mi →
    searchLoop cbrt a d target mi b iters acc =
      ⟨acc ++ (rangeDown (b : ℤ) 1).filterMap (tryCandidate cbrt a d target),
       iters + b, false⟩ := by
  intro b
  induction b with
  | zero =>
    intro iters acc h
    simp [searchLoop, rangeDown_eq_nil (by norm_num : (0 : ℤ) < 1)]
  | succ b ih =>
    intro iters acc h
    have hle : ¬ (((iters + 1 : ℕ) : ℤ) > mi) := by push_cast at h ⊢; omega
    have hcons : rangeDown ((b + 1 : ℕ) : ℤ) 1 = ((b : ℤ) + 1) :: rangeDown (b : ℤ) 1 := by
      have h1 : (1 : ℤ) ≤ ((b + 1 : ℕ) : ℤ) := by push_cast; omega
      rw [rangeDown_eq_cons h1]
      norm_num
    have hrec : ((iters + 1 : ℕ) : ℤ) + (b : ℤ) ≤ mi := by push_cast at h ⊢; omega
    cases htry : tryCandidate cbrt a d target ((b : ℤ) + 1) with
    | some q =>
      have hstep : searchLoop cbrt a d target mi (b + 1) iters acc
          = searchLoop cbrt a d target mi b (iters + 1) (acc ++ [q]) := by
        simp only [searchLoop]
        rw [if_neg hle, htry]
      rw [hstep, ih (iters + 1) (acc ++ [q]) hrec, hcons, List.filterMap_cons, htry]
      simp only [SearchResult.mk.injEq]
      refine ⟨by simp, by omega, by trivial⟩
    | none =>
      have hstep : searchLoop cbrt a d target mi (b + 1) iters acc
          = searchLoop cbrt a d target mi b (iters + 1) acc := by
        simp only [searchLoop]
        rw [if_neg hle, htry]
      rw [hstep, ih (iters + 1) acc hrec, hcons, List.filterMap_cons, htry]
      simp only [SearchResult.mk.injEq]
      refine ⟨by simp, by omega, by trivial⟩

/-- Running the `app.py` loop with insufficient budget processes exactly
the first `mi - iters` values of `b`, then increments the counter once
more and breaks with the cap flag set. -/
theorem searchLoop_cap (cbrt : ℤ → ℤ) (a d target mi : ℤ) :
    ∀ (b iters : ℕ) (acc : List Quad), (iters : ℤ) ≤ mi →
    mi < (iters : ℤ) + (b : ℤ) →
    searchLoop cbrt a d target mi b iters acc =
      ⟨acc ++ (rangeDown (b : ℤ) ((b : ℤ) - (mi - (iters : ℤ)) + 1)).filterMap
          (tryCandidate cbrt a d target),
       (mi - (iters : ℤ)).toNat + iters + 1, true⟩ := by
  intro b
  induction b with
  | zero =>
    intro iters acc h1 h2
    exfalso; push_cast at h2; omega
  | succ b ih =>
    intro iters acc h1 h2
    by_cases hbreak : ((iters + 1 : ℕ) : ℤ) > mi
    · have hmi : mi = (iters : ℤ) := by push_cast at hbreak; omega
      have hstep : searchLoop cbrt a d target mi (b + 1) iters acc
          = ⟨acc, iters + 1, true⟩ := by
        simp only [searchLoop]
        rw [if_pos hbreak]
      have hnil : rangeDown ((b + 1 : ℕ) : ℤ)
          (((b + 1 : ℕ) : ℤ) - (mi - (iters : ℤ)) + 1) = [] := by
        apply rangeDown_eq_nil; omega
      rw [hstep, hnil]
      simp only [SearchResult.mk.injEq]
      refine ⟨by simp, by omega, by trivial⟩
    · have h1' : ((iters + 1 : ℕ) : ℤ) ≤ mi := by omega
      have h2' : mi < ((iters + 1 : ℕ) : ℤ) + (b : ℤ) := by push_cast at h2 ⊢; omega
      have hcons : rangeDown ((b + 1 : ℕ) : ℤ)
          (((b + 1 : ℕ) : ℤ) - (mi - (iters : ℤ)) + 1)
          = ((b : ℤ) + 1) ::
            rangeDown (b : ℤ) ((b : ℤ) - (mi - ((iters + 1 : ℕ) : ℤ)) + 1) := by
      -- the lower bound is the same integer on both sides
        have h3 : (((b + 1 : ℕ) : ℤ) - (mi - (iters : ℤ)) + 1)
            = ((b : ℤ) - (mi - ((iters + 1 : ℕ) : ℤ)) + 1) := by push_cast; ring
        rw [h3, rangeDown_eq_cons (by push_cast at h1' ⊢; omega)]
        norm_num
      cases htry : tryCandidate cbrt a d target ((b : ℤ) + 1) with
      | some q =>
        have hstep : searchLoop cbrt a d target mi (b + 1) iters acc
            = searchLoop cbrt a d target mi b (iters + 1) (acc ++ [q]) := by
          simp only [searchLoop]
          rw [if_neg hbreak, htry]
        rw [hstep, ih (iters + 1) (acc ++ [q]) h1' h2', hcons,
          List.filterMap_cons, htry]
        simp only [SearchResult.mk.injEq]
        refine ⟨by simp, by push_cast at h1' ⊢; omega, by trivial⟩
      | none =>
        have hstep : searchLoop cbrt a d target mi (b + 1) iters acc
            = searchLoop cbrt a d target mi b (iters + 1) acc := by
          simp only [searchLoop]
          rw [if_neg hbreak, htry]
        rw [hstep, ih (iters + 1) acc h1' h2', hcons, List.filterMap_cons, htry]
        simp only [SearchResult.mk.injEq]
        refine ⟨by simp, by push_cast at h1' ⊢; omega, by trivial⟩

/-- The primitive solutions the `app-p.py` loop collects out of a list of
accepted quadruplets: all of them with gcd 1 when `include_factors` is
set, none otherwise. -/
def primFilter (include_factors : Bool) (l : List Quad) : List Quad :=
  if include_factors then
    l.filter (fun q => is_primitive_solution q.1 q.2.1 q.2.2.1 q.2.2.2)
  else []

theorem primFilter_cons (if_ : Bool) (q : Quad) (l : List Quad) :
    primFilter if_ (q :: l) = primFilter if_ [q] ++ primFilter if_ l := by
  cases if_ <;> simp only [primFilter, if_pos, if_neg, Bool.false_eq_true,
    if_false, if_true, List.filter_cons, List.filter_nil, List.nil_append]
  split_ifs <;> simp

theorem primsStep_eq (if_ : Bool) (q : Quad) (prims : List Quad) :
    (if if_ then
      (if find_gcd_multiple q.1 q.2.1 q.2.2.1 q.2.2.2 = 1 then prims ++ [q]
       else prims)
     else prims)
      = prims ++ primFilter if_ [q] := by
  cases if_ <;>
    simp only [primFilter, is_primitive_solution, Bool.false_eq_true, if_false,
      if_true, List.filter_cons, List.filter_nil, List.append_nil]
  split_ifs with h1 h2 <;> simp_all

/-- `app-p.py` loop, sufficient budget: processes every `b` down to 1,
collecting the primitive quadruplets alongside. -/
theorem searchLoopF_no_cap (cbrt : ℤ → ℤ) (a d target mi : ℤ) (if_ : Bool) :
    ∀ (b iters : ℕ) (acc prims : List Quad), (iters : ℤ) + (b : ℤ) ≤ mi →
    searchLoopF cbrt a d target mi if_ b iters acc prims =
      ⟨acc ++ (rangeDown (b : ℤ) 1).filterMap (tryCandidate cbrt a d target),
       prims ++ primFilter if_
         ((rangeDown (b : ℤ) 1).filterMap (tryCandidate cbrt a d target)),
       iters + b, false⟩ := by
  intro b
  induction b with
  | zero =>
    intro iters acc prims h
    simp [searchLoopF, rangeDown_eq_nil (by norm_num : (0 : ℤ) < 1), primFilter]
  | succ b ih =>
    intro iters acc prims h
    have hle : ¬ (((iters + 1 : ℕ) : ℤ) > mi) := by push_cast at h ⊢; omega
    have hcons : rangeDown ((b + 1 : ℕ) : ℤ) 1 = ((b : ℤ) + 1) :: rangeDown (b : ℤ) 1 := by
      have h1 : (1 : ℤ) ≤ ((b + 1 : ℕ) : ℤ) := by push_cast; omega
      rw [rangeDown_eq_cons h1]
      norm_num
    have hrec : ((iters + 1 : ℕ) : ℤ) + (b : ℤ) ≤ mi := by push_cast at h ⊢; omega
    cases htry : tryCandidate cbrt a d target ((b : ℤ) + 1) with
    | some q =>
      have hstep : searchLoopF cbrt a d target mi if_ (b + 1) iters acc prims
          = searchLoopF cbrt a d target mi if_ b (iters + 1) (acc ++ [q])
              (prims ++ primFilter if_ [q]) := by
        simp only [searchLoopF]
        rw [if_neg hle, htry]
        simp only [primsStep_eq]
      rw [hstep, ih (iters + 1) (acc ++ [q]) (prims ++ primFilter if_ [q]) hrec,
        hcons, List.filterMap_cons, htry]
      simp only [FactorSearchResult.mk.injEq]
      refine ⟨by simp, ?_, by omega, by trivial⟩
      conv_rhs => rw [primFilter_cons]
      simp [List.append_assoc]
    | none =>
      have hstep : searchLoopF cbrt a d target mi if_ (b + 1) iters acc prims
          = searchLoopF cbrt a d target mi if_ b (iters + 1) acc prims := by
        simp only [searchLoopF]
        rw [if_neg hle, htry]
      rw [hstep, ih (iters + 1) acc prims hrec, hcons, List.filterMap_cons, htry]
      simp only [FactorSearchResult.mk.injEq]
      refine ⟨by simp, by simp, by omega, by trivial⟩

/-- `app-p.py` loop, insufficient budget: processes exactly the first
`mi - iters` values of `b`, then breaks with the cap flag set. -/
theorem searchLoopF_cap (cbrt : ℤ → ℤ) (a d target mi : ℤ) (if_ : Bool) :
    ∀ (b iters : ℕ) (acc prims : List Quad), (iters : ℤ) ≤ mi →
    mi < (iters : ℤ) + (b : ℤ) →
    searchLoopF cbrt a d target mi if_ b iters acc prims =
      ⟨acc ++ (rangeDown (b : ℤ) ((b : ℤ) - (mi - (iters : ℤ)) + 1)).filterMap
          (tryCandidate cbrt a d target),
       prims ++ primFilter if_
         ((rangeDown (b : ℤ) ((b : ℤ) - (mi - (iters : ℤ)) + 1)).filterMap
           (tryCandidate cbrt a d target)),
       (mi - (iters : ℤ)).toNat + iters + 1, true⟩ := by
  intro b
  induction b with
  | zero =>
    intro iters acc prims h1 h2
    exfalso; push_cast at h2; omega
  | succ b ih =>
    intro iters acc prims h1 h2
    by_cases hbreak : ((iters + 1 : ℕ) : ℤ) > mi
    · have hstep : searchLoopF cbrt a d target mi if_ (b + 1) iters acc prims
          = ⟨acc, prims, iters + 1, true⟩ := by
        simp only [searchLoopF]
        rw [if_pos hbreak]
      have hnil : rangeDown ((b + 1 : ℕ) : ℤ)
          (((b + 1 : ℕ) : ℤ) - (mi - (iters : ℤ)) + 1) = [] := by
        apply rangeDown_eq_nil; omega
      rw [hstep, hnil]
      simp only [FactorSearchResult.mk.injEq]
      refine ⟨by simp, by simp [primFilter], by omega, by trivial⟩
    · have h1' : ((iters + 1 : ℕ) : ℤ) ≤ mi := by omega
      have h2' : mi < ((iters + 1 : ℕ) : ℤ) + (b : ℤ) := by push_cast at h2 ⊢; omega
      have hcons : rangeDown ((b + 1 : ℕ) : ℤ)
          (((b + 1 : ℕ) : ℤ) - (mi - (iters : ℤ)) + 1)
          = ((b : ℤ) + 1) ::
            rangeDown (b : ℤ) ((b : ℤ) - (mi - ((iters + 1 : ℕ) : ℤ)) + 1) := by
        have h3 : (((b + 1 : ℕ) : ℤ) - (mi - (iters : ℤ)) + 1)
            = ((b : ℤ) - (mi - ((iters + 1 : ℕ) : ℤ)) + 1) := by push_cast; ring
        rw [h3, rangeDown_eq_cons (by push_cast at h1' ⊢; omega)]
        norm_num
      cases htry : tryCandidate cbrt a d target ((b : ℤ) + 1) with
      | some q =>
        have hstep : searchLoopF cbrt a d target mi if_ (b + 1) iters acc prims
            = searchLoopF cbrt a d target mi if_ b (iters + 1) (acc ++ [q])
                (prims ++ primFilter if_ [q]) := by
          simp only [searchLoopF]
          rw [if_neg hbreak, htry]
          simp only [primsStep_eq]
        rw [hstep, ih (iters + 1) (acc ++ [q]) (prims ++ primFilter if_ [q]) h1' h2',
          hcons, List.filterMap_cons, htry]
        simp only [FactorSearchResult.mk.injEq]
        refine ⟨by simp, ?_, by push_cast at h1' ⊢; omega, by trivial⟩
        conv_rhs => rw [primFilter_cons]
        simp [List.append_assoc]
      | none =>
        have hstep : searchLoopF cbrt a d target mi if_ (b + 1) iters acc prims
            = searchLoopF cbrt a d target mi if_ b (iters + 1) acc prims := by
          simp only [searchLoopF]
          rw [if_neg hbreak, htry]
        rw [hstep, ih (iters + 1) acc prims h1' h2', hcons, List.filterMap_cons, htry]
        simp only [FactorSearchResult.mk.injEq]
        refine ⟨by simp, by simp, by push_cast at h1' ⊢; omega, by trivial⟩

/-- Every quadruplet accepted by a loop iteration is a valid, ordered,
distinct solution (given `a < d`, which the callers guarantee via
`d = a + n`, `n > 0`). -/
theorem good_of_tryCandidate {cbrt : ℤ → ℤ} {a d target b : ℤ} {q : Quad}
    (had : a < d) (h : tryCandidate cbrt a d target b = some q) :
    GoodQuad q := by
  obtain ⟨hba, hbd, hpos, hcube, hc0, hcb, hca, hcd, -, -, -, heq, rfl⟩ :=
    tryCandidate_some_iff.mp h
  refine ⟨heq, had, hba, hcb, hc0, ?_, ?_, ?_, ?_, ?_, ?_⟩ <;> dsimp only <;>
    omega

theorem searchLoop_sound {cbrt : ℤ → ℤ} {a d target mi : ℤ} (had : a < d) :
    ∀ (b iters : ℕ) (acc : List Quad), (∀ q ∈ acc, GoodQuad q) →
    ∀ q ∈ (searchLoop cbrt a d target mi b iters acc).quadruplets, GoodQuad q := by
  intro b
  induction b with
  | zero =>
    intro iters acc hacc q hq
    exact hacc q (by simpa [searchLoop] using hq)
  | succ b ih =>
    intro iters acc hacc q hq
    by_cases hbreak : ((iters + 1 : ℕ) : ℤ) > mi
    · have hstep : searchLoop cbrt a d target mi (b + 1) iters acc
          = ⟨acc, iters + 1, true⟩ := by
        simp only [searchLoop]; rw [if_pos hbreak]
      rw [hstep] at hq
      exact hacc q hq
    · cases htry : tryCandidate cbrt a d target ((b : ℤ) + 1) with
      | some q0 =>
        have hstep : searchLoop cbrt a d target mi (b + 1) iters acc
            = searchLoop cbrt a d target mi b (iters + 1) (acc ++ [q0]) := by
          simp only [searchLoop]; rw [if_neg hbreak, htry]
        rw [hstep] at hq
        refine ih (iters + 1) (acc ++ [q0]) ?_ q hq
        intro q1 hq1
        rcases List.mem_append.mp hq1 with h1 | h1
        · exact hacc q1 h1
        · rw [List.mem_singleton.mp h1]
          exact good_of_tryCandidate had htry
      | none =>
        have hstep : searchLoop cbrt a d target mi (b + 1) iters acc
            = searchLoop cbrt a d target mi b (iters + 1) acc := by
          simp only [searchLoop]; rw [if_neg hbreak, htry]
        rw [hstep] at hq
        exact ih (iters + 1) acc hacc q hq

theorem mem_primFilter {if_ : Bool} {l : List Quad} {q : Quad}
    (h : q ∈ primFilter if_ l) : q ∈ l := by
  cases if_ <;> simp only [primFilter, Bool.false_eq_true, if_false,
    if_true] at h
  · exact absurd h (List.not_mem_nil q)
  · exact (List.mem_filter.mp h).1

theorem searchLoopF_sound {cbrt : ℤ → ℤ} {a d target mi : ℤ} {if_ : Bool}
    (had : a < d) :
    ∀ (b iters : ℕ) (acc prims : List Quad), (∀ q ∈ acc, GoodQuad q) →
    (∀ q ∈ prims, GoodQuad q) →
    (∀ q ∈ (searchLoopF cbrt a d target mi if_ b iters acc prims).quadruplets,
      GoodQuad q) ∧
    (∀ q ∈ (searchLoopF cbrt a d target mi if_ b iters acc prims).primitives,
      GoodQuad q) := by
  intro b
  induction b with
  | zero =>
    intro iters acc prims hacc hprims
    constructor
    · intro q hq; exact hacc q (by simpa [searchLoopF] using hq)
    · intro q hq; exact hprims q (by simpa [searchLoopF] using hq)
  | succ b ih =>
    intro iters acc prims hacc hprims
    by_cases hbreak : ((iters + 1 : ℕ) : ℤ) > mi
    · have hstep : searchLoopF cbrt a d target mi if_ (b + 1) iters acc prims
          = ⟨acc, prims, iters + 1, true⟩ := by
        simp only [searchLoopF]; rw [if_pos hbreak]
      rw [hstep]
      exact ⟨hacc, hprims⟩
    · cases htry : tryCandidate cbrt a d target ((b : ℤ) + 1) with
      | some q0 =>
        have hstep : searchLoopF cbrt a d target mi if_ (b + 1) iters acc prims
            = searchLoopF cbrt a d target mi if_ b (iters + 1) (acc ++ [q0])
                (prims ++ primFilter if_ [q0]) := by
          simp only [searchLoopF]
          rw [if_neg hbreak, htry]
          simp only [primsStep_eq]
        rw [hstep]
        refine ih (iters + 1) (acc ++ [q0]) (prims ++ primFilter if_ [q0]) ?_ ?_
        · intro q1 hq1
          rcases List.mem_append.mp hq1 with h1 | h1
          · exact hacc q1 h1
          · rw [List.mem_singleton.mp h1]
            exact good_of_tryCandidate had htry
        · intro q1 hq1
          rcases List.mem_append.mp hq1 with h1 | h1
          · exact hprims q1 h1
          · rw [List.mem_singleton.mp (mem_primFilter h1)]
            exact good_of_tryCandidate had htry
      | none =>
        have hstep : searchLoopF cbrt a d target mi if_ (b + 1) iters acc prims
            = searchLoopF cbrt a d target mi if_ b (iters + 1) acc prims := by
          simp only [searchLoopF]; rw [if_neg hbreak, htry]
        rw [hstep]
        exact ih (iters + 1) acc prims hacc hprims

theorem mem_familyStep {p q : Quad} {acc : List Quad} {f : ℤ}
    (h : q ∈ familyStep p acc f) : q ∈ acc ∨ q = scaleQuad f p := by
  simp only [familyStep] at h
  split_ifs at h with h1 h2
  · exact Or.inl h
  · rcases List.mem_append.mp h with h3 | h3
    · exact Or.inl h3
    · exact Or.inr (List.mem_singleton.mp h3)
  · exact Or.inl h

theorem mem_scaleFold {p q : Quad} :
    ∀ (fs : List ℤ) (acc : List Quad), q ∈ fs.foldl (familyStep p) acc →
    q ∈ acc ∨ ∃ f ∈ fs, q = scaleQuad f p := by
  intro fs
  induction fs with
  | nil => intro acc h; exact Or.inl (by simpa using h)
  | cons f fs ih =>
    intro acc h
    rw [List.foldl_cons] at h
    rcases ih (familyStep p acc f) h with h1 | ⟨f', hf', hq⟩
    · rcases mem_familyStep h1 with h2 | h2
      · exact Or.inl h2
      · exact Or.inr ⟨f, List.mem_cons_self f fs, h2⟩
    · exact Or.inr ⟨f', List.mem_cons_of_mem f hf', hq⟩

theorem mem_addFamilies {mf : ℤ} {q : Quad} :
    ∀ (prims quads : List Quad), q ∈ addFamilies mf prims quads →
    q ∈ quads ∨ ∃ p ∈ prims, ∃ f : ℤ, 2 ≤ f ∧ q = scaleQuad f p := by
  intro prims
  induction prims with
  | nil => intro quads h; exact Or.inl (by simpa [addFamilies] using h)
  | cons p ps ih =>
    intro quads h
    simp only [addFamilies, List.foldl_cons] at h ⊢
    rcases ih _ h with h1 | ⟨p', hp', f, hf, hq⟩
    · rcases mem_scaleFold _ _ h1 with h2 | ⟨f, hf, hq⟩
      · exact Or.inl h2
      · exact Or.inr ⟨p, List.mem_cons_self p ps, f, (mem_rangeAsc.mp hf).1, hq⟩
    · exact Or.inr ⟨p', List.mem_cons_of_mem p hp', f, hf, hq⟩

/-- Scaling by a positive factor preserves the full solution property. -/
theorem GoodQuad_scale {f : ℤ} (hf : 0 < f) {q : Quad} (h : GoodQuad q) :
    GoodQuad (scaleQuad f q) := by
  obtain ⟨a, b, c, d⟩ := q
  obtain ⟨heq, h1, h2, h3, h4, -, -, -, -, -, -⟩ := h
  have hda := mul_lt_mul_of_pos_left h1 hf
  have hab := mul_lt_mul_of_pos_left h2 hf
  have hbc := mul_lt_mul_of_pos_left h3 hf
  have hc0 := mul_pos hf h4
  refine ⟨?_, hda, hab, hbc, hc0, ne_of_gt hab, ne_of_gt (hbc.trans hab),
    ne_of_lt hda, ne_of_gt hbc, ne_of_lt (hab.trans hda),
    ne_of_lt (hbc.trans (hab.trans hda))⟩
  show (f * a) ^ 3 + (f * b) ^ 3 + (f * c) ^ 3 = (f * d) ^ 3
  have e : (f * a) ^ 3 + (f * b) ^ 3 + (f * c) ^ 3
      = f ^ 3 * (a ^ 3 + b ^ 3 + c ^ 3) := by ring
  rw [e, heq]
  ring

/-- `find_cube_quadruplets_improved` with sufficient budget: the result is
exactly the accepted candidates for `b` from `a - 1` down to 1, with the
iteration counter at `a - 1` and no cap hit. -/
theorem improved_no_cap {cbrt : ℤ → ℤ} {a n mi : ℤ} (ha : 0 < a) (hn : 0 < n)
    (hmi0 : 0 < mi) (hcap : a - 1 ≤ mi) :
    find_cube_quadruplets_improved cbrt a n mi =
      Except.ok ⟨(rangeDown (a - 1) 1).filterMap
          (tryCandidate cbrt a (a + n) ((a + n) ^ 3 - a ^ 3)),
        (a - 1).toNat, false⟩ := by
  have herr : ¬ (a ≤ 0 ∨ n ≤ 0) := by push_neg; omega
  simp only [find_cube_quadruplets_improved]
  rw [if_pos hmi0, if_neg herr,
    searchLoop_no_cap cbrt a (a + n) ((a + n) ^ 3 - a ^ 3) mi (a - 1).toNat 0 []
      (by omega)]
  have hc : (((a - 1).toNat : ℕ) : ℤ) = a - 1 := by omega
  rw [hc]
  simp

/-- `find_cube_quadruplets_improved` with insufficient budget: the result
is exactly the accepted candidates for `b` from `a - 1` down to `a - mi`,
with the counter at `mi + 1` and the cap flag set. -/
theorem improved_cap {cbrt : ℤ → ℤ} {a n mi : ℤ} (ha : 0 < a) (hn : 0 < n)
    (hmi0 : 0 < mi) (hcap : mi < a - 1) :
    find_cube_quadruplets_improved cbrt a n mi =
      Except.ok ⟨(rangeDown (a - 1) (a - mi)).filterMap
          (tryCandidate cbrt a (a + n) ((a + n) ^ 3 - a ^ 3)),
        mi.toNat + 1, true⟩ := by
  have herr : ¬ (a ≤ 0 ∨ n ≤ 0) := by push_neg; omega
  simp only [find_cube_quadruplets_improved]
  rw [if_pos hmi0, if_neg herr,
    searchLoop_cap cbrt a (a + n) ((a + n) ^ 3 - a ^ 3) mi (a - 1).toNat 0 []
      (by omega) (by omega)]
  have hc : (((a - 1).toNat : ℕ) : ℤ) = a - 1 := by omega
  rw [hc]
  have h2 : (a - 1 : ℤ) - (mi - ((0 : ℕ) : ℤ)) + 1 = a - mi := by push_cast; ring
  rw [h2]
  simp only [Except.ok.injEq, SearchResult.mk.injEq]
  refine ⟨by simp, by omega, by trivial⟩

/-- `find_cube_quadruplets_with_factors` with sufficient budget. -/
theorem with_factors_no_cap {cbrt : ℤ → ℤ} {a n mi mf : ℤ} {if_ : Bool}
    (ha : 0 < a) (hn : 0 < n) (hmi0 : 0 < mi) (hcap : a - 1 ≤ mi) :
    find_cube_quadruplets_with_factors cbrt a n mi if_ mf =
      (let F := (rangeDown (a - 1) 1).filterMap
          (tryCandidate cbrt a (a + n) ((a + n) ^ 3 - a ^ 3));
       if if_ ∧ primFilter if_ F ≠ [] then
         Except.ok ⟨addFamilies (if mf > 0 then mf else 5) (primFilter if_ F) F,
           primFilter if_ F, (a - 1).toNat, false⟩
       else Except.ok ⟨F, primFilter if_ F, (a - 1).toNat, false⟩) := by
  have herr : ¬ (a ≤ 0 ∨ n ≤ 0) := by push_neg; omega
  simp only [find_cube_quadruplets_with_factors]
  rw [if_pos hmi0, if_neg herr,
    searchLoopF_no_cap cbrt a (a + n) ((a + n) ^ 3 - a ^ 3) mi if_
      (a - 1).toNat 0 [] [] (by omega)]
  have hc : (((a - 1).toNat : ℕ) : ℤ) = a - 1 := by omega
  rw [hc]
  simp

/-- `find_cube_quadruplets_with_factors` with insufficient budget. -/
theorem with_factors_cap {cbrt : ℤ → ℤ} {a n mi mf : ℤ} {if_ : Bool}
    (ha : 0 < a) (hn : 0 < n) (hmi0 : 0 < mi) (hcap : mi < a - 1) :
    find_cube_quadruplets_with_factors cbrt a n mi if_ mf =
      (let F := (rangeDown (a - 1) (a - mi)).filterMap
          (tryCandidate cbrt a (a + n) ((a + n) ^ 3 - a ^ 3));
       if if_ ∧ primFilter if_ F ≠ [] then
         Except.ok ⟨addFamilies (if mf > 0 then mf else 5) (primFilter if_ F) F,
           primFilter if_ F, mi.toNat + 1, true⟩
       else Except.ok ⟨F, primFilter if_ F, mi.toNat + 1, true⟩) := by
  have herr : ¬ (a ≤ 0 ∨ n ≤ 0) := by push_neg; omega
  simp only [find_cube_quadruplets_with_factors]
  rw [if_pos hmi0, if_neg herr,
    searchLoopF_cap cbrt a (a + n) ((a + n) ^ 3 - a ^ 3) mi if_
      (a - 1).toNat 0 [] [] (by omega) (by omega)]
  have hc : (((a - 1).toNat : ℕ) : ℤ) = a - 1 := by omega
  rw [hc]
  have h2 : (a - 1 : ℤ) - (mi - ((0 : ℕ) : ℤ)) + 1 = a - mi := by push_cast; ring
  rw [h2]
  have h3 : ((mi - ((0 : ℕ) : ℤ)).toNat : ℕ) + 0 + 1 = mi.toNat + 1 := by omega
  rw [h3]
  simp

/-- Soundness of `find_cube_quadruplets_improved`: every returned
quadruplet is a valid, ordered, distinct solution. -/
theorem improved_sound {cbrt : ℤ → ℤ} {a n mi : ℤ} {r : SearchResult}
    (hn : 0 < n)
    (h : find_cube_quadruplets_improved cbrt a n mi = Except.ok r) :
    ∀ q ∈ r.quadruplets, GoodQuad q := by
  simp only [find_cube_quadruplets_improved] at h
  by_cases h1 : a ≤ 0 ∨ n ≤ 0
  · rw [if_pos h1] at h
    exact absurd h (by simp)
  · rw [if_neg h1] at h
    injection h with h'
    subst h'
    exact searchLoop_sound (by omega) _ 0 [] (by simp)

/-- Soundness of `find_cube_quadruplets_with_factors`, including the
scaled family members appended after the loop. -/
theorem with_factors_sound {cbrt : ℤ → ℤ} {a n mi mf : ℤ} {if_ : Bool}
    {r : FactorSearchResult} (hn : 0 < n)
    (h : find_cube_quadruplets_with_factors cbrt a n mi if_ mf = Except.ok r) :
    ∀ q ∈ r.quadruplets, GoodQuad q := by
  simp only [find_cube_quadruplets_with_factors] at h
  by_cases h1 : a ≤ 0 ∨ n ≤ 0
  · rw [if_pos h1] at h
    exact absurd h (by simp)
  · rw [if_neg h1] at h
    set mi' := if mi > 0 then mi else 10000 with hmi'
    set mf' := if mf > 0 then mf else 5 with hmf'
    split_ifs at h with h2
    · injection h with h'
      subst h'
      have hs := @searchLoopF_sound cbrt a (a + n) ((a + n) ^ 3 - a ^ 3)
        mi' if_ (by omega) (a - 1).toNat 0 [] [] (by simp) (by simp)
      intro q hq
      rcases mem_addFamilies _ _ hq with hq1 | ⟨p, hp, f, hf, rfl⟩
      · exact hs.1 q hq1
      · exact GoodQuad_scale (by omega) (hs.2 p hp)
    · injection h with h'
      subst h'
      exact (searchLoopF_sound (by omega) _ 0 [] [] (by simp) (by simp)).1

/-- `find_gcd_multiple` in terms of `Nat.gcd` on absolute values. -/
theorem find_gcd_multiple_eq_nat (a b c d : ℤ) :
    find_gcd_multiple a b c d =
      ((Nat.gcd (Nat.gcd (Nat.gcd a.natAbs b.natAbs) c.natAbs) d.natAbs : ℕ) : ℤ) := by
  simp [find_gcd_multiple, Int.gcd, Int.natAbs_ofNat]

theorem find_gcd_multiple_dvd (a b c d : ℤ) :
    find_gcd_multiple a b c d ∣ a ∧ find_gcd_multiple a b c d ∣ b ∧
    find_gcd_multiple a b c d ∣ c ∧ find_gcd_multiple a b c d ∣ d := by
  unfold find_gcd_multiple
  refine ⟨?_, ?_, ?_, ?_⟩
  · exact (Int.gcd_dvd_left.trans Int.gcd_dvd_left).trans Int.gcd_dvd_left
  · exact (Int.gcd_dvd_left.trans Int.gcd_dvd_left).trans Int.gcd_dvd_right
  · exact Int.gcd_dvd_left.trans Int.gcd_dvd_right
  · exact Int.gcd_dvd_right

theorem find_gcd_multiple_pos {a b c d : ℤ} (hd : d ≠ 0) :
    0 < find_gcd_multiple a b c d := by
  unfold find_gcd_multiple
  have h := Int.gcd_pos_iff.mpr
    (Or.inr hd : ((Int.gcd ((Int.gcd a b : ℕ) : ℤ) c : ℕ) : ℤ) ≠ 0 ∨ d ≠ 0)
  exact_mod_cast h

theorem fdiv_mul_gcd {g x : ℤ} (hg : g ≠ 0) (hdvd : g ∣ x) :
    g * x.fdiv g = x := by
  obtain ⟨k, rfl⟩ := hdvd
  rw [Int.mul_fdiv_cancel_left k hg]

/-- Dividing four numbers by their (positive) quadruple gcd leaves
quadruple gcd 1. -/
theorem nat_gcd4_div {A B C D g : ℕ}
    (hg : g = Nat.gcd (Nat.gcd (Nat.gcd A B) C) D) (hD : 0 < D) :
    Nat.gcd (Nat.gcd (Nat.gcd (A / g) (B / g)) (C / g)) (D / g) = 1 := by
  have hgpos : 0 < g := hg ▸ Nat.gcd_pos_of_pos_right _ hD
  have h1 : g ∣ Nat.gcd (Nat.gcd A B) C := hg ▸ Nat.gcd_dvd_left _ _
  have hD' : g ∣ D := hg ▸ Nat.gcd_dvd_right _ _
  have h2 : g ∣ Nat.gcd A B := h1.trans (Nat.gcd_dvd_left _ _)
  have hC : g ∣ C := h1.trans (Nat.gcd_dvd_right _ _)
  have hA : g ∣ A := h2.trans (Nat.gcd_dvd_left _ _)
  have hB : g ∣ B := h2.trans (Nat.gcd_dvd_right _ _)
  rw [Nat.gcd_div hA hB, Nat.gcd_div h2 hC, Nat.gcd_div h1 hD', ← hg,
    Nat.div_self hgpos]

/-- Completeness of the brute-force double loop: any valid pair `(b, c)`
below `a` is collected. -/
theorem mem_find_cube_quadruplets {a n b c : ℤ} (hc0 : 0 < c) (hcb : c < b)
    (hba : b < a) (heq : b ^ 3 + c ^ 3 = (a + n) ^ 3 - a ^ 3) :
    (a, b, c, a + n) ∈ find_cube_quadruplets a n := by
  simp only [find_cube_quadruplets, List.mem_flatMap, List.mem_filterMap]
  refine ⟨b, mem_rangeDown.mpr ⟨by omega, by omega⟩, c,
    mem_rangeDown.mpr ⟨by omega, by omega⟩, ?_⟩
  rw [if_pos heq]

/-- Completeness of one loop iteration: when the candidate generator
returns the true cube root, a valid pair is accepted. -/
theorem tryCandidate_complete {cbrt : ℤ → ℤ} {a n b c : ℤ} (hc0 : 0 < c)
    (hcb : c < b) (hba : b < a) (hn : 0 < n)
    (heq : b ^ 3 + c ^ 3 = (a + n) ^ 3 - a ^ 3)
    (hcbrt : cbrt ((a + n) ^ 3 - a ^ 3 - b ^ 3) = c) :
    tryCandidate cbrt a (a + n) ((a + n) ^ 3 - a ^ 3) b
      = some (a, b, c, a + n) := by
  apply tryCandidate_some_iff.mpr
  rw [hcbrt]
  have hc3 : (0 : ℤ) < c ^ 3 := pow_pos hc0 3
  refine ⟨hba, by omega, by linarith, by linarith, hc0, hcb, by omega,
    by omega, by omega, by omega, by omega, by linarith, rfl⟩

/-! ### Claim theorems -/

/-- C2: the tolerance comparisons `abs(c**3 - needed) < 1e-10` and
`abs(a**3 + b**3 + c**3 - d**3) < 1e-10`, evaluated on integer values,
accept exactly the same candidates as exact integer equality: the
tolerance test is equivalent to `=` on `ℤ`, and consequently a loop
iteration accepts a rounded candidate `c` iff `c³ = needed` exactly (and
the remaining constraints hold). -/
theorem C2_tolerance_acceptance_exact (x y : ℤ) (cbrt : ℤ → ℤ)
    (a d target b : ℤ) (q : Quad) :
    (tol_lt x y = true ↔ x = y) ∧
    (tryCandidate cbrt a d target b = some q ↔
      (b < a ∧ b < d ∧ 0 < target - b ^ 3 ∧
       (cbrt (target - b ^ 3)) ^ 3 = target - b ^ 3 ∧
       0 < cbrt (target - b ^ 3) ∧ cbrt (target - b ^ 3) < b ∧
       cbrt (target - b ^ 3) < a ∧ cbrt (target - b ^ 3) < d ∧
       cbrt (target - b ^ 3) ≠ a ∧ cbrt (target - b ^ 3) ≠ b ∧
       cbrt (target - b ^ 3) ≠ d ∧
       a ^ 3 + b ^ 3 + (cbrt (target - b ^ 3)) ^ 3 = d ^ 3 ∧
       q = (a, b, cbrt (target - b ^ 3), d))) :=
  ⟨tol_lt_iff x y, tryCandidate_some_iff⟩

/-- C3 counterexample: on the literal input (3, 4, 5, 6) the verifier
reports the equation satisfied but the ordering checks `a > b` and
`b > c` come out false (3 > 4 and 4 > 5 fail), so it does not report all
four ordering checks as true. -/
theorem C3_counterexample :
    verify_equation_step_by_step 3 4 5 6
      = VerifyOutcome.satisfied true true false false true false ∧
    verify_equation_step_by_step 3 4 5 6
      ≠ VerifyOutcome.satisfied true true true true true true := by
  decide

/-- C3 amended: `verify_equation_step_by_step (3, 4, 5, 6)` reports the
equation satisfied, the alternative form matching, and `d > a` and
`c > 0` true, but `a > b` and `b > c` false; the descending reordering
(5, 4, 3, 6) of the same solution passes every check. -/
theorem C3_amended :
    verify_equation_step_by_step 3 4 5 6
      = VerifyOutcome.satisfied true true false false true false ∧
    verify_equation_step_by_step 5 4 3 6
      = VerifyOutcome.satisfied true true true true true true := by
  decide

/-- C9: homogeneity of the cubic equation — scaling a solution
componentwise by any positive integer factor yields a solution, and
scaling preserves the full validity property (equation, ordering,
distinctness), so family members need no re-verification. -/
theorem C9_homogeneity (a b c d f : ℤ) (hf : 0 < f)
    (heq : a ^ 3 + b ^ 3 + c ^ 3 = d ^ 3) :
    ((scaleQuad f (a, b, c, d)).1 ^ 3 + (scaleQuad f (a, b, c, d)).2.1 ^ 3 +
      (scaleQuad f (a, b, c, d)).2.2.1 ^ 3
      = (scaleQuad f (a, b, c, d)).2.2.2 ^ 3) ∧
    (GoodQuad (a, b, c, d) → GoodQuad (scaleQuad f (a, b, c, d))) := by
  constructor
  · dsimp [scaleQuad]
    have e : (f * a) ^ 3 + (f * b) ^ 3 + (f * c) ^ 3
        = f ^ 3 * (a ^ 3 + b ^ 3 + c ^ 3) := by ring
    rw [e, heq]
    ring
  · exact GoodQuad_scale hf

/-- C9 witness at the primitive (3, 4, 5, 6) with factor 2. -/
theorem C9_homogeneity_witness :
    (0 : ℤ) < 2 ∧ (3 : ℤ) ^ 3 + 4 ^ 3 + 5 ^ 3 = 6 ^ 3 ∧
    (((scaleQuad 2 ((3 : ℤ), 4, 5, 6)).1 ^ 3
        + (scaleQuad 2 ((3 : ℤ), 4, 5, 6)).2.1 ^ 3
        + (scaleQuad 2 ((3 : ℤ), 4, 5, 6)).2.2.1 ^ 3
        = (scaleQuad 2 ((3 : ℤ), 4, 5, 6)).2.2.2 ^ 3) ∧
     (GoodQuad ((3 : ℤ), 4, 5, 6) → GoodQuad (scaleQuad 2 ((3 : ℤ), 4, 5, 6)))) :=
  ⟨by norm_num, by norm_num, C9_homogeneity 3 4 5 6 2 (by norm_num) (by norm_num)⟩

set_option maxRecDepth 400000 in
/-- C10: the factor search is not anchored to its input — on the valid
input a = 5, n = 1, maxFactor = 2 it returns the scaled family member
(10, 8, 6, 12), whose first component is not 5 and whose gap d - a is
not 1; moreover the bounds check applied to scaled members,
`new_d == new_a + factor * (prim_d - prim_a)`, is a tautology, so no
scaled member is ever filtered by the original (a, n) window. -/
theorem C10_family_not_anchored :
    (find_cube_quadruplets_with_factors cbrtRound 5 1 10000 true 2 =
      Except.ok ⟨[(5, 4, 3, 6), (10, 8, 6, 12)], [(5, 4, 3, 6)], 4, false⟩) ∧
    ((10 : ℤ) ≠ 5 ∧ (12 : ℤ) - 10 ≠ 1) ∧
    (∀ (f : ℤ) (p : Quad),
      (scaleQuad f p).2.2.2 = (scaleQuad f p).1 + f * (p.2.2.2 - p.1)) := by
  refine ⟨by rfl, by decide, fun f p => ?_⟩
  dsimp [scaleQuad]
  ring

set_option maxRecDepth 400000 in
/-- C4 counterexample: `max_iterations = 0` is not a positive integer,
yet the search does not reject — it runs to completion (5 iterations at
a = 6) under the silently substituted default budget. -/
theorem C4_counterexample :
    find_cube_quadruplets_improved cbrtRound 6 3 0 =
      Except.ok ⟨[], 5, false⟩ := by
  rfl

/-- C4 amended: non-positive `a` or `n` is rejected with the
invalid-parameter error (whose Python return value carries an empty
quadruplet list) before any search; a non-positive `maxIterations` is
not rejected — it is silently replaced by the default 10000 and the
search proceeds identically. -/
theorem C4_amended (cbrt : ℤ → ℤ) (a n mi mf : ℤ) (if_ : Bool) :
    (a ≤ 0 ∨ n ≤ 0 →
      find_cube_quadruplets_improved cbrt a n mi =
        Except.error "Error: Both a and n must be positive integers" ∧
      find_cube_quadruplets_with_factors cbrt a n mi if_ mf =
        Except.error "Error: Both a and n must be positive integers") ∧
    (mi ≤ 0 →
      find_cube_quadruplets_improved cbrt a n mi =
        find_cube_quadruplets_improved cbrt a n 10000 ∧
      find_cube_quadruplets_with_factors cbrt a n mi if_ mf =
        find_cube_quadruplets_with_factors cbrt a n 10000 if_ mf) := by
  constructor
  · intro h
    constructor
    · simp only [find_cube_quadruplets_improved]
      rw [if_pos h]
    · simp only [find_cube_quadruplets_with_factors]
      rw [if_pos h]
  · intro h
    have h1 : ¬ (mi > 0) := by omega
    constructor
    · simp only [find_cube_quadruplets_improved]
      rw [if_neg h1, if_pos (by norm_num : (10000 : ℤ) > 0)]
    · simp only [find_cube_quadruplets_with_factors]
      rw [if_neg h1, if_pos (by norm_num : (10000 : ℤ) > 0)]

set_option maxRecDepth 400000 in
/-- C4 amended, witness: rejection at a = -1 and default substitution at
maxIterations = 0. -/
theorem C4_amended_witness :
    (((-1 : ℤ) ≤ 0 ∨ (3 : ℤ) ≤ 0) ∧
      (find_cube_quadruplets_improved cbrtRound (-1) 3 10 =
        Except.error "Error: Both a and n must be positive integers" ∧
       find_cube_quadruplets_with_factors cbrtRound (-1) 3 10 true 5 =
        Except.error "Error: Both a and n must be positive integers")) ∧
    ((0 : ℤ) ≤ 0 ∧
      (find_cube_quadruplets_improved cbrtRound 6 3 0 =
        find_cube_quadruplets_improved cbrtRound 6 3 10000 ∧
       find_cube_quadruplets_with_factors cbrtRound 6 3 0 true 5 =
        find_cube_quadruplets_with_factors cbrtRound 6 3 10000 true 5)) :=
  ⟨⟨Or.inl (by norm_num),
      (C4_amended cbrtRound (-1) 3 10 5 true).1 (Or.inl (by norm_num))⟩,
    ⟨le_refl 0, (C4_amended cbrtRound 6 3 0 5 true).2 (le_refl 0)⟩⟩

/-- C1: soundness of the single-point search — every quadruplet returned
by `find_cube_quadruplets`, `find_cube_quadruplets_improved` or
`find_cube_quadruplets_with_factors` on positive `a` and `n` satisfies
the cube equation exactly, the ordering `d > a > b > c > 0`, and pairwise
distinctness of the four components, for every cube-root candidate
generator. -/
theorem C1_search_soundness (cbrt : ℤ → ℤ) (a n mi mf : ℤ) (if_ : Bool)
    (q : Quad) (ha : 0 < a) (hn : 0 < n) :
    (q ∈ find_cube_quadruplets a n → GoodQuad q) ∧
    (∀ r : SearchResult,
      find_cube_quadruplets_improved cbrt a n mi = Except.ok r →
      q ∈ r.quadruplets → GoodQuad q) ∧
    (∀ r : FactorSearchResult,
      find_cube_quadruplets_with_factors cbrt a n mi if_ mf = Except.ok r →
      q ∈ r.quadruplets → GoodQuad q) := by
  refine ⟨?_, ?_, ?_⟩
  · intro hq
    simp only [find_cube_quadruplets, List.mem_flatMap, List.mem_filterMap] at hq
    obtain ⟨b, hb, c, hc, hq⟩ := hq
    rw [mem_rangeDown] at hb hc
    split_ifs at hq with heq
    · injection hq with hq'
      subst hq'
      unfold GoodQuad
      dsimp only
      refine ⟨by linarith, by omega, by omega, by omega, by omega, by omega,
        by omega, by omega, by omega, by omega, by omega⟩
  · intro r hr hq
    exact improved_sound hn hr q hq
  · intro r hr hq
    exact with_factors_sound hn hr q hq

set_option maxRecDepth 400000 in
/-- C1 witness: the concrete run at a = 5, n = 1 whose result contains
both the directly found (5, 4, 3, 6) and the scaled (10, 8, 6, 12). -/
theorem C1_search_soundness_witness :
    (0 : ℤ) < 5 ∧ (0 : ℤ) < 1 ∧
    (((10, 8, 6, 12) ∈ find_cube_quadruplets 5 1 → GoodQuad (10, 8, 6, 12)) ∧
     (∀ r : SearchResult,
       find_cube_quadruplets_improved cbrtRound 5 1 10000 = Except.ok r →
       (10, 8, 6, 12) ∈ r.quadruplets → GoodQuad (10, 8, 6, 12)) ∧
     (∀ r : FactorSearchResult,
       find_cube_quadruplets_with_factors cbrtRound 5 1 10000 true 2
         = Except.ok r →
       (10, 8, 6, 12) ∈ r.quadruplets → GoodQuad (10, 8, 6, 12))) :=
  ⟨by norm_num, by norm_num,
    C1_search_soundness cbrtRound 5 1 10000 2 true (10, 8, 6, 12)
      (by norm_num) (by norm_num)⟩

set_option maxRecDepth 400000 in
/-- C5 counterexample: at a = 5, n = 1, maxIterations = 3 (< a - 1),
include_factors = true, maxFactor = 2, the factor search does stop with
the cap set and counter 4 = maxIterations + 1, but its returned list
[(5,4,3,6), (10,8,6,12)] is not the list [(5,4,3,6)] of quadruplets
accepted for the examined b values 4, 3, 2 — the scaled family member
(10, 8, 6, 12) is appended after truncation. -/
theorem C5_counterexample :
    find_cube_quadruplets_with_factors cbrtRound 5 1 3 true 2 =
      Except.ok ⟨[(5, 4, 3, 6), (10, 8, 6, 12)], [(5, 4, 3, 6)], 4, true⟩ ∧
    (rangeDown (5 - 1 : ℤ) (5 - 3)).filterMap
      (tryCandidate cbrtRound 5 (5 + 1) ((5 + 1) ^ 3 - 5 ^ 3))
      = [(5, 4, 3, 6)] ∧
    ([(5, 4, 3, 6), (10, 8, 6, 12)] : List Quad) ≠ [(5, 4, 3, 6)] := by
  refine ⟨by rfl, by rfl, by decide⟩

/-- C5 amended: with 0 < maxIterations < a - 1, both searches stop with
capHit set and iteration counter maxIterations + 1, and
`find_cube_quadruplets_improved` returns exactly the quadruplets
accepted for b from a - 1 down to a - maxIterations;
`find_cube_quadruplets_with_factors` returns exactly those same
quadruplets when include_factors is false or no primitive is among them,
and otherwise those quadruplets followed by their scaled family
members. -/
theorem C5_amended (cbrt : ℤ → ℤ) (a n mi mf : ℤ) (if_ : Bool)
    (ha : 0 < a) (hn : 0 < n) (hmi0 : 0 < mi) (hcap : mi < a - 1) :
    find_cube_quadruplets_improved cbrt a n mi =
      Except.ok ⟨(rangeDown (a - 1) (a - mi)).filterMap
          (tryCandidate cbrt a (a + n) ((a + n) ^ 3 - a ^ 3)),
        mi.toNat + 1, true⟩ ∧
    find_cube_quadruplets_with_factors cbrt a n mi if_ mf =
      (let F := (rangeDown (a - 1) (a - mi)).filterMap
          (tryCandidate cbrt a (a + n) ((a + n) ^ 3 - a ^ 3));
       if if_ ∧ primFilter if_ F ≠ [] then
         Except.ok ⟨addFamilies (if mf > 0 then mf else 5) (primFilter if_ F) F,
           primFilter if_ F, mi.toNat + 1, true⟩
       else Except.ok ⟨F, primFilter if_ F, mi.toNat + 1, true⟩) :=
  ⟨improved_cap ha hn hmi0 hcap, with_factors_cap ha hn hmi0 hcap⟩

set_option maxRecDepth 400000 in
/-- C5 amended, witness at a = 5, n = 1, maxIterations = 3. -/
theorem C5_amended_witness :
    ((0 : ℤ) < 5 ∧ (0 : ℤ) < 1 ∧ (0 : ℤ) < 3 ∧ (3 : ℤ) < 5 - 1) ∧
    (find_cube_quadruplets_improved cbrtRound 5 1 3 =
      Except.ok ⟨(rangeDown (5 - 1) (5 - 3)).filterMap
          (tryCandidate cbrtRound 5 (5 + 1) ((5 + 1) ^ 3 - 5 ^ 3)),
        (3 : ℤ).toNat + 1, true⟩ ∧
     find_cube_quadruplets_with_factors cbrtRound 5 1 3 true 2 =
      (let F := (rangeDown (5 - 1) (5 - 3)).filterMap
          (tryCandidate cbrtRound 5 (5 + 1) ((5 + 1) ^ 3 - 5 ^ 3));
       if true ∧ primFilter true F ≠ [] then
         Except.ok ⟨addFamilies (if (2 : ℤ) > 0 then 2 else 5)
             (primFilter true F) F,
           primFilter true F, (3 : ℤ).toNat + 1, true⟩
       else Except.ok ⟨F, primFilter true F, (3 : ℤ).toNat + 1, true⟩)) :=
  ⟨⟨by norm_num, by norm_num, by norm_num, by norm_num⟩,
    C5_amended cbrtRound 5 1 3 2 true (by norm_num) (by norm_num)
      (by norm_num) (by norm_num)⟩

set_option maxRecDepth 400000 in
/-- C6 counterexample: the single-point search at the harness's test
point a = 6, n = 3, maxIterations = 20000 returns an empty quadruplet
list (with 5 iterations used and no cap hit), not a non-empty one. -/
theorem C6_counterexample :
    find_cube_quadruplets_improved cbrtRound 6 3 20000 =
      Except.ok ⟨[], 5, false⟩ := by
  rfl

/-- C6 amended: for every cube-root candidate generator, the searches at
a = 6, n = 3 return an empty quadruplet list — no (b, c) with
0 < c < b < 6 and b³ + c³ = 9³ − 6³ = 513 exists — and the harness's
expected quadruplet (6, 8, 10, 9) does not satisfy the equation
(9³ − 6³ = 513 while 8³ + 10³ = 1512, difference 999). -/
theorem C6_amended (cbrt : ℤ → ℤ) :
    find_cube_quadruplets_improved cbrt 6 3 20000 = Except.ok ⟨[], 5, false⟩ ∧
    find_cube_quadruplets_with_factors cbrt 6 3 15000 true 3 =
      Except.ok ⟨[], [], 5, false⟩ ∧
    verify_equation_step_by_step 6 8 10 9 = VerifyOutcome.notSatisfied 999 := by
  have hno : ∀ m : ℤ, 343 < m → m < 512 → ∀ c : ℤ, c ^ 3 ≠ m := by
    intro m h1 h2 c
    refine @no_cube_between 7 m ?_ ?_ c
    · norm_num
      linarith
    · norm_num
      linarith
  have htryb : ∀ b : ℤ, b = 5 ∨ b = 4 ∨ b = 3 ∨ b = 2 →
      tryCandidate cbrt 6 (6 + 3) ((6 + 3) ^ 3 - 6 ^ 3) b = none := by
    intro b hb
    apply tryCandidate_eq_none_of_no_cube
    intro c
    rcases hb with rfl | rfl | rfl | rfl <;>
      · norm_num
        exact hno _ (by norm_num) (by norm_num) c
  have htry1 : tryCandidate cbrt 6 (6 + 3) ((6 + 3) ^ 3 - 6 ^ 3) 1 = none := by
    cases htry : tryCandidate cbrt 6 (6 + 3) ((6 + 3) ^ 3 - 6 ^ 3) 1 with
    | none => rfl
    | some q =>
      obtain ⟨-, -, -, hcube, hc0, hcb, -⟩ := tryCandidate_some_iff.mp htry
      have h8 : cbrt ((6 + 3) ^ 3 - 6 ^ 3 - 1 ^ 3) = 8 := by
        apply cube_inj
        rw [hcube]
        norm_num
      rw [h8] at hcb
      norm_num at hcb
  have hlist : rangeDown (6 - 1 : ℤ) 1 = [5, 4, 3, 2, 1] := by rfl
  have hF : (rangeDown (6 - 1 : ℤ) 1).filterMap
      (tryCandidate cbrt 6 (6 + 3) ((6 + 3) ^ 3 - 6 ^ 3)) = [] := by
    rw [hlist]
    simp only [List.filterMap_cons, List.filterMap_nil]
    rw [htryb 5 (by norm_num), htryb 4 (by norm_num), htryb 3 (by norm_num),
      htryb 2 (by norm_num), htry1]
  refine ⟨?_, ?_, by decide⟩
  · rw [improved_no_cap (by norm_num) (by norm_num) (by norm_num) (by norm_num),
      hF]
    rfl
  · rw [with_factors_no_cap (by norm_num) (by norm_num) (by norm_num)
      (by norm_num)]
    simp only [hF, primFilter]
    simp

/-- C7: completeness of the single-point search — any pair (b, c) with
0 < c < b < a and b³ + c³ = (a + n)³ − a³ is returned, by the exhaustive
double loop unconditionally, and by `find_cube_quadruplets_improved`
with budget at least a − 1 whenever the cube-root candidate generator
rounds `needed` to the true c. -/
theorem C7_search_completeness (cbrt : ℤ → ℤ) (a n mi b c : ℤ)
    (ha : 0 < a) (hn : 0 < n) (hc0 : 0 < c) (hcb : c < b) (hba : b < a)
    (heq : b ^ 3 + c ^ 3 = (a + n) ^ 3 - a ^ 3)
    (hmi0 : 0 < mi) (hmi : a - 1 ≤ mi)
    (hcbrt : cbrt ((a + n) ^ 3 - a ^ 3 - b ^ 3) = c) :
    (a, b, c, a + n) ∈ find_cube_quadruplets a n ∧
    ∀ r : SearchResult,
      find_cube_quadruplets_improved cbrt a n mi = Except.ok r →
      (a, b, c, a + n) ∈ r.quadruplets := by
  constructor
  · exact mem_find_cube_quadruplets hc0 hcb hba heq
  · intro r hr
    rw [improved_no_cap ha hn hmi0 hmi] at hr
    injection hr with hr'
    subst hr'
    dsimp only
    exact List.mem_filterMap.mpr
      ⟨b, mem_rangeDown.mpr ⟨by omega, by omega⟩,
        tryCandidate_complete hc0 hcb hba hn heq hcbrt⟩

set_option maxRecDepth 400000 in
/-- C7 witness: the solution (5, 4, 3, 6) is found at a = 5, n = 1. -/
theorem C7_search_completeness_witness :
    cbrtRound ((5 + 1 : ℤ) ^ 3 - 5 ^ 3 - 4 ^ 3) = 3 ∧
    (4 : ℤ) ^ 3 + 3 ^ 3 = ((5 : ℤ) + 1) ^ 3 - 5 ^ 3 ∧
    (((5 : ℤ), (4 : ℤ), (3 : ℤ), (5 + 1 : ℤ)) ∈ find_cube_quadruplets 5 1 ∧
     ∀ r : SearchResult,
       find_cube_quadruplets_improved cbrtRound 5 1 10000 = Except.ok r →
       ((5 : ℤ), (4 : ℤ), (3 : ℤ), (5 + 1 : ℤ)) ∈ r.quadruplets) :=
  ⟨by rfl, by norm_num,
    C7_search_completeness cbrtRound 5 1 10000 4 3 (by norm_num) (by norm_num)
      (by norm_num) (by norm_num) (by norm_num) (by norm_num) (by norm_num)
      (by norm_num) (by rfl)⟩

/-- C8: round-trip law of `get_primitive_form` — the reported factor is
the quadruple gcd, it is at least 1, re-scaling each reduced component by
it restores the original quadruplet exactly, and the reduced quadruplet
has quadruple gcd 1. -/
theorem C8_primitive_roundtrip (a b c d : ℤ) (ha : 0 < a) (hb : 0 < b)
    (hc : 0 < c) (hd : 0 < d) :
    (get_primitive_form a b c d).2.2.2.2 = find_gcd_multiple a b c d ∧
    1 ≤ find_gcd_multiple a b c d ∧
    find_gcd_multiple a b c d * (get_primitive_form a b c d).1 = a ∧
    find_gcd_multiple a b c d * (get_primitive_form a b c d).2.1 = b ∧
    find_gcd_multiple a b c d * (get_primitive_form a b c d).2.2.1 = c ∧
    find_gcd_multiple a b c d * (get_primitive_form a b c d).2.2.2.1 = d ∧
    find_gcd_multiple (get_primitive_form a b c d).1
      (get_primitive_form a b c d).2.1 (get_primitive_form a b c d).2.2.1
      (get_primitive_form a b c d).2.2.2.1 = 1 := by
  obtain ⟨hdva, hdvb, hdvc, hdvd⟩ := find_gcd_multiple_dvd a b c d
  have hgpos : 0 < find_gcd_multiple a b c d := find_gcd_multiple_pos (by omega)
  refine ⟨rfl, by omega, fdiv_mul_gcd (by omega) hdva,
    fdiv_mul_gcd (by omega) hdvb, fdiv_mul_gcd (by omega) hdvc,
    fdiv_mul_gcd (by omega) hdvd, ?_⟩
  obtain ⟨A, rfl⟩ : ∃ A : ℕ, a = (A : ℤ) :=
    ⟨a.toNat, (Int.toNat_of_nonneg ha.le).symm⟩
  obtain ⟨B, rfl⟩ : ∃ B : ℕ, b = (B : ℤ) :=
    ⟨b.toNat, (Int.toNat_of_nonneg hb.le).symm⟩
  obtain ⟨C, rfl⟩ : ∃ C : ℕ, c = (C : ℤ) :=
    ⟨c.toNat, (Int.toNat_of_nonneg hc.le).symm⟩
  obtain ⟨D, rfl⟩ : ∃ D : ℕ, d = (D : ℤ) :=
    ⟨d.toNat, (Int.toNat_of_nonneg hd.le).symm⟩
  have hg : find_gcd_multiple (A : ℤ) (B : ℤ) (C : ℤ) (D : ℤ)
      = ((Nat.gcd (Nat.gcd (Nat.gcd A B) C) D : ℕ) : ℤ) := by
    rw [find_gcd_multiple_eq_nat]
    simp [Int.natAbs_ofNat]
  show find_gcd_multiple
      ((A : ℤ).fdiv (find_gcd_multiple (A : ℤ) (B : ℤ) (C : ℤ) (D : ℤ)))
      ((B : ℤ).fdiv (find_gcd_multiple (A : ℤ) (B : ℤ) (C : ℤ) (D : ℤ)))
      ((C : ℤ).fdiv (find_gcd_multiple (A : ℤ) (B : ℤ) (C : ℤ) (D : ℤ)))
      ((D : ℤ).fdiv (find_gcd_multiple (A : ℤ) (B : ℤ) (C : ℤ) (D : ℤ))) = 1
  rw [hg]
  have hfd : ∀ X : ℕ,
      (X : ℤ).fdiv ((Nat.gcd (Nat.gcd (Nat.gcd A B) C) D : ℕ) : ℤ)
        = ((X / Nat.gcd (Nat.gcd (Nat.gcd A B) C) D : ℕ) : ℤ) := fun X => by
    exact_mod_cast (Int.ofNat_fdiv X (Nat.gcd (Nat.gcd (Nat.gcd A B) C) D)).symm
  rw [hfd A, hfd B, hfd C, hfd D, find_gcd_multiple_eq_nat]
  simp only [Int.natAbs_ofNat]
  have hD0 : 0 < D := by exact_mod_cast hd
  rw [nat_gcd4_div rfl hD0]
  norm_num

/-- C8 witness at the scaled quadruplet (10, 8, 6, 12), whose gcd is 2
and primitive form (5, 4, 3, 6). -/
theorem C8_primitive_roundtrip_witness :
    (0 : ℤ) < 10 ∧ (0 : ℤ) < 8 ∧ (0 : ℤ) < 6 ∧ (0 : ℤ) < 12 ∧
    ((get_primitive_form 10 8 6 12).2.2.2.2 = find_gcd_multiple 10 8 6 12 ∧
     1 ≤ find_gcd_multiple 10 8 6 12 ∧
     find_gcd_multiple 10 8 6 12 * (get_primitive_form 10 8 6 12).1 = 10 ∧
     find_gcd_multiple 10 8 6 12 * (get_primitive_form 10 8 6 12).2.1 = 8 ∧
     find_gcd_multiple 10 8 6 12 * (get_primitive_form 10 8 6 12).2.2.1 = 6 ∧
     find_gcd_multiple 10 8 6 12 * (get_primitive_form 10 8 6 12).2.2.2.1 = 12 ∧
     find_gcd_multiple (get_primitive_form 10 8 6 12).1
       (get_primitive_form 10 8 6 12).2.1 (get_primitive_form 10 8 6 12).2.2.1
       (get_primitive_form 10 8 6 12).2.2.2.1 = 1) :=
  ⟨by norm_num, by norm_num, by norm_num, by norm_num,
    C8_primitive_roundtrip 10 8 6 12 (by norm_num) (by norm_num) (by norm_num)
      (by norm_num)⟩
